import Mathlib

/-!
Verification development for the `apppass` password manager.

The core of the program layers an enumerable, typed key-value store on top
of an OS credential store that only offers single key→value
`set`/`get`/`delete`.  The repository carries superseded snapshots of its
modules; the canonical keyring module is src/src/app/keyring.rs (with the
reserved-key short-circuit, the parse-time trim/filter, the sort before
join, and the self-healing listing), while the password and OTP modules
live in src/apppass/src/app/{password,otp}.rs, whose keyring functions
`save_to_keyring`/`get_from_keyring`/`delete_from_keyring` are identical
in both generations.  We embed that layer shallowly: the credential store
becomes an association list from keys to string values, each Rust function
becomes a Lean function in explicit state-passing style, and the external
collaborators (the `rand` crate, the system clock, file I/O, the spawned
deletion thread) become explicit parameters or are left outside the state
transition, as the repository's own documentation treats them.
-/

namespace Apppass

/-- Reserved index key, from `src/src/app/mod.rs` (`APP_INDEX`). -/
def APP_INDEX : String := "apppass_index"

/-- Reserved settings key, from `src/src/app/mod.rs` (`PASSWORD_LENGTH_KEY`). -/
def PASSWORD_LENGTH_KEY : String := "password_length"

/-- Metadata suffix for password type, from `src/src/app/mod.rs`. -/
def PASSWORD_TYPE_SUFFIX : String := "_type"

/-- Metadata suffix for OTP expiry, from `src/src/app/mod.rs`. -/
def OTP_EXPIRY_SUFFIX : String := "_otp_expiry"

/-- Errors of the `keyring` crate as the program distinguishes them:
`NoEntry` versus every other backend error. -/
inductive KeyringError where
  | noEntry
  | other
deriving DecidableEq, Repr

deriving instance DecidableEq for Except

/-- The OS credential store restricted to the single fixed service namespace
`APP_SERVICE`: an association list from keys to stored string values.  The
program only ever uses `set_password`, `get_password`, `delete_credential`
on `(APP_SERVICE, key)` pairs, so the service component is dropped. -/
abbrev Store : Type := List (String × String)

/-- `Entry::get_password`: first binding of the key, `NoEntry` when absent. -/
def storeGet (s : Store) (key : String) : Except KeyringError String :=
  match s with
  | [] => .error .noEntry
  | (k, v) :: rest => if k = key then .ok v else storeGet rest key

/-- Remove every binding of `key`. -/
def storeErase (s : Store) (key : String) : Store :=
  match s with
  | [] => []
  | (k, v) :: rest =>
    if k = key then storeErase rest key else (k, v) :: storeErase rest key

/-- `Entry::set_password`: overwrite the binding of `key`. -/
def storeSet (s : Store) (key v : String) : Store :=
  (key, v) :: storeErase s key

/-- `Entry::delete_credential`: delete the binding, `NoEntry` when absent. -/
def storeDelete (s : Store) (key : String) : Except KeyringError Unit × Store :=
  match storeGet s key with
  | .ok _ => (.ok (), storeErase s key)
  | .error e => (.error e, s)

/-- Rust `data.split(',')` on the character list: splits at every comma and
keeps empty pieces, so `""` yields `[""]`. -/
def splitCommaAux (l : List Char) (acc : List Char) : List String :=
  match l with
  | [] => [String.mk acc.reverse]
  | c :: cs =>
    if c = ',' then String.mk acc.reverse :: splitCommaAux cs []
    else splitCommaAux cs (c :: acc)

/-- Rust `data.split(',')` on a string. -/
def splitComma (v : String) : List String :=
  splitCommaAux v.data []

/-- Rust `str::ends_with` for string suffixes. -/
def endsWithStr (v suffix : String) : Bool :=
  v.data.drop (v.data.length - suffix.data.length) == suffix.data

/-- `HashSet::insert`: membership-preserving insertion.  The set is
represented as a duplicate-free list; Rust's `HashSet` iteration order is
unspecified, but the canonical `update_index` sorts before persisting, so
the list order only determines membership and emptiness, which are
order-independent — no theorem below depends on it. -/
def setInsert (l : List String) (x : String) : List String :=
  if x ∈ l then l else l ++ [x]

/-- `HashSet::remove`. -/
def setRemove (l : List String) (x : String) : List String :=
  l.filter (fun y => !(y == x))

/-- `data.split(',').map(String::from).collect::<HashSet<_>>()`:
deduplication keeping first occurrences. -/
def setOfList (l : List String) : List String :=
  l.foldl setInsert []

/-- The reserved-name test of the canonical keyring module
(src/src/app/keyring.rs:77-80, repeated at 153-156 and in the other list
helpers): the settings key, either metadata suffix, or the index key
itself. -/
def reserved_name (nm : String) : Bool :=
  nm == PASSWORD_LENGTH_KEY || endsWithStr nm PASSWORD_TYPE_SUFFIX
    || endsWithStr nm OTP_EXPIRY_SUFFIX || nm == APP_INDEX

/-- Rust `str::trim` on the character list: whitespace removed from both
ends (`Char.isWhitespace` agrees with Rust's whitespace class on the ASCII
range these records use). -/
def trimData (l : List Char) : List Char :=
  ((l.dropWhile Char.isWhitespace).reverse.dropWhile Char.isWhitespace).reverse

/-- Rust `str::trim` on a string. -/
def trimStr (v : String) : String :=
  String.mk (trimData v.data)

/-- Lexicographic comparison of character lists by code point; identical
to Rust's byte-wise `Ord` on `String`, since UTF-8 byte order coincides
with code-point order. -/
def lexLe : List Char → List Char → Bool
  | [], _ => true
  | _ :: _, [] => false
  | a :: as, b :: bs => if a = b then lexLe as bs else decide (a < b)

/-- Rust `String` ordering as a Bool comparator. -/
def strLe (a b : String) : Bool :=
  lexLe a.data b.data

/-- Rust `String` ordering as a relation, for the sort lemmas. -/
def strle (a b : String) : Prop :=
  strLe a b = true

instance strle_decidable : DecidableRel strle :=
  fun a b => instDecidableEqBool (strLe a b) true

/-- Rust `Vec::sort()` on strings (src/src/app/keyring.rs:125): the sorted
arrangement under `strle`.  Insertion sort returns the same list as Rust's
stable sort, since equal keys are identical strings. -/
def sortStr (l : List String) : List String :=
  List.insertionSort strle l

/-- Rust `real_entries.join(",")` (src/src/app/keyring.rs:127). -/
def joinComma : List String → String
  | [] => ""
  | [x] => x
  | x :: y :: rest => x ++ "," ++ joinComma (y :: rest)

/-- The per-piece body of the parse-time `filter_map` in the canonical
`update_index` (src/src/app/keyring.rs:91-102): trim the piece, drop it
when the trimmed name is empty or reserved, otherwise keep the trimmed
name. -/
def parse_piece (piece : String) : Option String :=
  let trimmed := trimStr piece
  if trimmed == "" || reserved_name trimmed then none else some trimmed

/-- The index parse of the canonical `update_index`: split on commas,
apply `parse_piece` to every piece, collect into a set
(src/src/app/keyring.rs:90-103). -/
def parse_index (data : String) : List String :=
  setOfList ((splitComma data).filterMap parse_piece)

/-- The index fetch at the top of `update_index`: `NoEntry` is an empty
set, other errors propagate (src/src/app/keyring.rs:87-107). -/
def fetch_index (s : Store) : Except KeyringError (List String) :=
  match storeGet s APP_INDEX with
  | .ok data => .ok (parse_index data)
  | .error .noEntry => .ok []
  | .error e => .error e

/-- The insert-or-remove step of `update_index`
(src/src/app/keyring.rs:110-114).  The inserted `app_name` is not passed
through the parse-time filter. -/
def modified_index (index : List String) (app_name : String) (add : Bool) :
    List String :=
  if add then setInsert index app_name else setRemove index app_name

/-- `update_index` of the canonical keyring module
(src/src/app/keyring.rs:75-129): short-circuit when `app_name` is itself a
reserved key; otherwise fetch-or-empty and parse with the trim/reserved
filter, insert or remove the name, delete the index record when nothing
remains, and otherwise persist the names sorted lexicographically and
comma-joined.  (The copy under src/apppass/src/app/keyring.rs is a
superseded snapshot without the short-circuit, the parse-time filter and
the sort.) -/
def update_index (s : Store) (app_name : String) (add : Bool) :
    Except KeyringError Unit × Store :=
  if reserved_name app_name then (.ok (), s)
  else
    match fetch_index s with
    | .error e => (.error e, s)
    | .ok index =>
      let idx := modified_index index app_name add
      if idx.isEmpty then (.ok (), (storeDelete s APP_INDEX).2)
      else (.ok (), storeSet s APP_INDEX (joinComma (sortStr idx)))

/-- `save_to_keyring` (src/apppass/src/app/keyring.rs:17): write the entry,
then add it to the index. -/
def save_to_keyring (s : Store) (app_name password : String) :
    Except KeyringError Unit × Store :=
  let s1 := storeSet s app_name password
  match update_index s1 app_name true with
  | (.error e, s2) => (.error e, s2)
  | (.ok _, s2) => (.ok (), s2)

/-- `get_from_keyring` (src/apppass/src/app/keyring.rs:33). -/
def get_from_keyring (s : Store) (app_name : String) :
    Except KeyringError String :=
  storeGet s app_name

/-- `delete_from_keyring` (src/apppass/src/app/keyring.rs:47): delete the
entry (propagating failure), remove it from the index, then delete the
`<name>_type` metadata ignoring any error. -/
def delete_from_keyring (s : Store) (app_name : String) :
    Except KeyringError Unit × Store :=
  match storeDelete s app_name with
  | (.error e, s1) => (.error e, s1)
  | (.ok _, s1) =>
    match update_index s1 app_name false with
    | (.error e, s2) => (.error e, s2)
    | (.ok _, s2) =>
      (.ok (), (storeDelete s2 (app_name ++ PASSWORD_TYPE_SUFFIX)).2)

/-- `set_password_type` (src/apppass/src/app/keyring.rs:163). -/
def set_password_type (s : Store) (app_name password_type : String) :
    Except KeyringError Unit × Store :=
  (.ok (), storeSet s (app_name ++ PASSWORD_TYPE_SUFFIX) password_type)

/-- `get_password_type` (src/apppass/src/app/keyring.rs:180). -/
def get_password_type (s : Store) (app_name : String) : Option String :=
  match storeGet s (app_name ++ PASSWORD_TYPE_SUFFIX) with
  | .ok v => some v
  | .error _ => none

/-- The listing loop of the canonical `show_list_applications`
(src/src/app/keyring.rs:151-174): reserved names are skipped; readable
entries are printed (the first output component); a name whose read fails
is an orphan and is silently removed from the index via
`update_index(name, false)`. -/
def show_list_loop : Store → List String → List (String × String) × Store
  | st, [] => ([], st)
  | st, n :: rest =>
    if reserved_name n then show_list_loop st rest
    else
      match get_from_keyring st n with
      | .ok pw =>
        let r := show_list_loop st rest
        ((n, pw) :: r.1, r.2)
      | .error _ => show_list_loop (update_index st n false).2 rest

/-- `show_list_applications` of the canonical keyring module
(src/src/app/keyring.rs:143-187): read the index, split on commas dropping
empty pieces, and run the listing loop, which both prints readable entries
and self-heals the index.  (The copy under src/apppass is a superseded
snapshot that only logs unreadable names.) -/
def show_list_applications (s : Store) :
    List (String × String) × Store :=
  match storeGet s APP_INDEX with
  | .ok data =>
    show_list_loop s ((splitComma data).filter (fun n => !(n == "")))
  | .error _ => ([], s)

/-- Well-formedness of one name stored inside the index record: non-empty,
comma-free (so comma-join and comma-split invert), trim-invariant, and not
reserved.  Every output of `parse_piece`, hence every element the
canonical `update_index` ever writes back, has this shape. -/
def wfName (e : String) : Prop :=
  e ≠ "" ∧ (∀ c ∈ e.data, c ≠ ',') ∧ trimStr e = e ∧ reserved_name e = false

/-- Invariant of the orphan self-heal argument: every name in the current
index record is well-formed and `n` is not among them. -/
def J (n : String) (st : Store) : Prop :=
  ∀ data, storeGet st APP_INDEX = .ok data →
    (∀ e ∈ splitComma data, wfName e) ∧ n ∉ splitComma data

/-- `generate_save_safety_password` (src/apppass/src/app/password.rs:84):
pre-check that the entry does not resolve, then write the generated
password, index it, and mark it `auto`.  The alphanumeric sampling itself is
the external `rand` collaborator: `rand_password` stands for the sampled
string of `length.getD 30` characters. -/
def generate_save_safety_password (s : Store) (app_name : String)
    (length : Option Nat) (rand_password : String) :
    Except KeyringError Unit × Store :=
  match storeGet s app_name with
  | .ok _ => (.error .noEntry, s)
  | .error .noEntry =>
    let _ := length.getD 30
    match save_to_keyring s app_name rand_password with
    | (.error e, s1) => (.error e, s1)
    | (.ok _, s1) =>
      match set_password_type s1 app_name "auto" with
      | (.error e, s2) => (.error e, s2)
      | (.ok _, s2) => (.ok (), s2)
  | .error e => (.error e, s)

/-- `delete_password` (src/apppass/src/app/password.rs:115): plain
passthrough to `delete_from_keyring`. -/
def delete_password (s : Store) (app_name : String) :
    Except KeyringError Unit × Store :=
  delete_from_keyring s app_name

/-- The word list of `generate_memorizable_password`
(src/apppass/src/app/password.rs:208). -/
def memorizable_words : List String :=
  ["Tiger", "Orange", "Mountain", "River", "Cloud", "Sky", "Sun", "Moon"]

/-- The set of values Rust `thread_rng().gen_range(10..99)` can return: the
half-open range, 10 included, 99 excluded (rand's documented semantics for
a `Range` argument). -/
def gen_range_10_99 : Finset Nat := Finset.Ico 10 99

/-- `generate_memorizable_password` (src/apppass/src/app/password.rs:196):
same existence pre-check as create, then store
`{word}-{number}-{word}` and mark it `auto`.  `w1`/`w2` stand for the two
`words.choose` results and `n` for the `gen_range(10..99)` result; the
sampling itself is the external `rand` collaborator, so the theorems
constrain these parameters to the sampler's possible outputs. -/
def generate_memorizable_password (s : Store) (app_name : String)
    (w1 : String) (n : Nat) (w2 : String) :
    Except KeyringError Unit × Store :=
  match storeGet s app_name with
  | .ok _ => (.error .noEntry, s)
  | .error .noEntry =>
    let password := w1 ++ "-" ++ toString n ++ "-" ++ w2
    match save_to_keyring s app_name password with
    | (.error e, s1) => (.error e, s1)
    | (.ok _, s1) =>
      match set_password_type s1 app_name "auto" with
      | (.error e, s2) => (.error e, s2)
      | (.ok _, s2) => (.ok (), s2)
  | .error e => (.error e, s)

/-- The loop body of `import_passwords` (src/apppass/src/app/password.rs:175):
split the line on commas, trim every field, and when exactly two fields
remain store the pair and mark it `custom`; other field counts are skipped
without error. -/
def import_line (s : Store) (line : String) :
    Except KeyringError Unit × Store :=
  let key_value := (splitComma line).map trimStr
  if key_value.length = 2 then
    let app_name := key_value.getD 0 ""
    let password := key_value.getD 1 ""
    match save_to_keyring s app_name password with
    | (.error e, s1) => (.error e, s1)
    | (.ok _, s1) =>
      match set_password_type s1 app_name "custom" with
      | (.error e, s2) => (.error e, s2)
      | (.ok _, s2) => (.ok (), s2)
  else (.ok (), s)

/-- `import_passwords` (src/apppass/src/app/password.rs:171) over the list
of lines of the file (reading the file and splitting it into lines is the
out-of-scope I/O boundary); any keyring error aborts the loop as `?` does. -/
def import_passwords (s : Store) (lines : List String) :
    Except KeyringError Unit × Store :=
  match lines with
  | [] => (.ok (), s)
  | l :: rest =>
    match import_line s l with
    | (.error e, s1) => (.error e, s1)
    | (.ok _, s1) => import_passwords s1 rest

/-- Rust `str::parse::<u64>()`: optional leading `+`, then at least one
ASCII digit, rejecting values above `u64::MAX`. -/
def parse_u64_digits (l : List Char) : Option Nat :=
  if l.isEmpty || !(l.all Char.isDigit) then none
  else some (l.foldl (fun acc c => acc * 10 + (c.toNat - 48)) 0)

/-- Rust `value.parse::<u64>().ok()` as used by `get_otp_expiry`. -/
def parse_u64 (v : String) : Option Nat :=
  let digits :=
    match v.data with
    | '+' :: rest => rest
    | l => l
  match parse_u64_digits digits with
  | some n => if n < 2 ^ 64 then some n else none
  | none => none

/-- `save_otp_expiry` (src/apppass/src/app/otp.rs:17): store the decimal
rendering of the timestamp under `<name>_otp_expiry`. -/
def save_otp_expiry (s : Store) (app_name : String) (expiry_timestamp : Nat) :
    Except String Unit × Store :=
  (.ok (), storeSet s (app_name ++ OTP_EXPIRY_SUFFIX)
    (toString expiry_timestamp))

/-- `get_otp_expiry` (src/apppass/src/app/otp.rs:36): read the expiry
record and parse it as `u64`; a missing record or a failed parse both
yield `none`. -/
def get_otp_expiry (s : Store) (app_name : String) : Option Nat :=
  match storeGet s (app_name ++ OTP_EXPIRY_SUFFIX) with
  | .ok v => parse_u64 v
  | .error _ => none

/-- `delete_otp_expiry` (src/apppass/src/app/otp.rs:51): delete the expiry
record, ignoring any error. -/
def delete_otp_expiry (s : Store) (app_name : String) : Store :=
  (storeDelete s (app_name ++ OTP_EXPIRY_SUFFIX)).2

/-- `delete_otp` (src/apppass/src/app/otp.rs:63): delete the entry through
`delete_from_keyring` (mapping failure to a message), then delete the
expiry metadata. -/
def delete_otp (s : Store) (app_name : String) : Except String Unit × Store :=
  match delete_from_keyring s app_name with
  | (.error _, s1) => (.error "Failed to delete OTP", s1)
  | (.ok _, s1) => (.ok (), delete_otp_expiry s1 app_name)

/-- `is_otp_expired` (src/apppass/src/app/otp.rs:80): with an expiry on
record, expired exactly when `now >= expiry`; with none, `false`.  `now` is
the external clock (seconds since the Unix epoch, clamped to 0 by the
source when the clock precedes the epoch). -/
def is_otp_expired (s : Store) (app_name : String) (now : Nat) : Bool :=
  match get_otp_expiry s app_name with
  | some expiry => decide (expiry ≤ now)
  | none => false

/-- The per-name body of the `cleanup_expired_otps` loop
(src/apppass/src/app/otp.rs:102): reserved names are skipped; a name whose
expiry record parses to a reached timestamp is deleted via `delete_otp`
(failure only logged); every other name is left untouched. -/
def cleanup_step (s : Store) (now : Nat) (app_name : String) : Store :=
  if reserved_name app_name then s
  else
    match get_otp_expiry s app_name with
    | some expiry => if expiry ≤ now then (delete_otp s app_name).2 else s
    | none => s

/-- `cleanup_expired_otps` (src/apppass/src/app/otp.rs:94): snapshot the
index names, then run `cleanup_step` over them threading the store. -/
def cleanup_expired_otps (s : Store) (now : Nat) : Store :=
  match storeGet s APP_INDEX with
  | .ok data =>
    ((splitComma data).filter (fun n => !(n == ""))).foldl
      (fun st n => cleanup_step st now n) s
  | .error _ => s

/-- `generate_otp` (src/apppass/src/app/otp.rs:147): compute
`expiry = now + ttl_seconds`, save the sampled password (no existence
pre-check precedes this), mark it `auto` and record the expiry (failures of
those two steps are only logged), and return the password.  `otp` stands
for the external sampler's output of `length` alphanumeric characters; the
spawned deferred-deletion thread is external concurrency and is represented
by a later explicit `delete_otp` call, exactly as the startup sweep
compensates for it. -/
def generate_otp (s : Store) (app_name : String)
    (ttl_seconds length now : Nat) (otp : String) :
    Except String String × Store :=
  let _ := length
  let expiry_timestamp := now + ttl_seconds
  match save_to_keyring s app_name otp with
  | (.ok _, s1) =>
    let s2 := (set_password_type s1 app_name "auto").2
    let s3 := (save_otp_expiry s2 app_name expiry_timestamp).2
    (.ok otp, s3)
  | (.error _, s1) => (.error "Failed to save OTP to keyring", s1)

/-! ### Store lemmas -/

theorem storeGet_error_eq {k : String} {e : KeyringError} :
    ∀ {s : Store}, storeGet s k = .error e → e = .noEntry
  | [], h => by
    simp [storeGet] at h
    exact h.symm
  | (a, b) :: rest, h => by
    by_cases hak : a = k
    · simp [storeGet, hak] at h
    · simp only [storeGet, if_neg hak] at h
      exact storeGet_error_eq h

theorem storeGet_erase_self (k : String) :
    ∀ (s : Store), storeGet (storeErase s k) k = .error .noEntry := by
  intro s
  induction s with
  | nil => rfl
  | cons p rest ih =>
    obtain ⟨a, b⟩ := p
    by_cases hak : a = k
    · simp [storeErase, hak, ih]
    · simp [storeErase, storeGet, hak, ih]

theorem storeGet_erase_ne {k q : String} (hqk : q ≠ k) :
    ∀ (s : Store), storeGet (storeErase s k) q = storeGet s q := by
  intro s
  induction s with
  | nil => rfl
  | cons p rest ih =>
    obtain ⟨a, b⟩ := p
    by_cases hak : a = k
    · subst hak
      have hkq : ¬ a = q := fun hh => hqk hh.symm
      simp [storeErase, storeGet, hkq, ih]
    · by_cases haq : a = q
      · subst haq
        simp [storeErase, storeGet, hqk, hak]
      · simp [storeErase, storeGet, hak, haq, ih]

theorem storeGet_set_same (s : Store) (k v : String) :
    storeGet (storeSet s k v) k = .ok v := by
  simp [storeSet, storeGet]

theorem storeGet_set_ne {k q : String} (hqk : q ≠ k) (s : Store) (v : String) :
    storeGet (storeSet s k v) q = storeGet s q := by
  have hkq : ¬ k = q := fun hh => hqk hh.symm
  simp [storeSet, storeGet, hkq, storeGet_erase_ne hqk]

theorem storeGet_delete_self (s : Store) (k : String) :
    storeGet (storeDelete s k).2 k = .error .noEntry := by
  cases hg : storeGet s k with
  | ok v => simp [storeDelete, hg, storeGet_erase_self]
  | error e =>
    simp only [storeDelete, hg]
    rw [storeGet_error_eq hg]

theorem storeGet_delete_ne {k q : String} (hqk : q ≠ k) (s : Store) :
    storeGet (storeDelete s k).2 q = storeGet s q := by
  cases hg : storeGet s k with
  | ok v => simp [storeDelete, hg, storeGet_erase_ne hqk]
  | error e => simp [storeDelete, hg]

/-! ### Key-shape lemmas

The derived metadata keys can never collide with the entry they annotate,
with each other, or with the reserved index key. -/

theorem data_nil_eq_empty {s : String} (h : s.data = []) : s = "" := by
  cases s
  simp_all

theorem typeKey_ne_self (n : String) : n ++ PASSWORD_TYPE_SUFFIX ≠ n := by
  intro h
  have hl := congrArg String.length h
  rw [String.length_append] at hl
  have h5 : PASSWORD_TYPE_SUFFIX.length = 5 := rfl
  omega

theorem expiryKey_ne_self (n : String) : n ++ OTP_EXPIRY_SUFFIX ≠ n := by
  intro h
  have hl := congrArg String.length h
  rw [String.length_append] at hl
  have h11 : OTP_EXPIRY_SUFFIX.length = 11 := rfl
  omega

theorem typeKey_ne_expiryKey (n : String) :
    n ++ PASSWORD_TYPE_SUFFIX ≠ n ++ OTP_EXPIRY_SUFFIX := by
  intro h
  have hl := congrArg String.length h
  rw [String.length_append, String.length_append] at hl
  have h5 : PASSWORD_TYPE_SUFFIX.length = 5 := rfl
  have h11 : OTP_EXPIRY_SUFFIX.length = 11 := rfl
  omega

theorem typeKey_ne_index (n : String) :
    n ++ PASSWORD_TYPE_SUFFIX ≠ APP_INDEX := by
  intro h
  have hd := congrArg String.data h
  rw [String.data_append] at hd
  have hlen : n.data.length = 8 := by
    have hl := congrArg List.length hd
    rw [List.length_append] at hl
    have h5 : PASSWORD_TYPE_SUFFIX.data.length = 5 := rfl
    have h13 : APP_INDEX.data.length = 13 := rfl
    omega
  have hdrop := congrArg (List.drop 8) hd
  have hdl : (n.data ++ PASSWORD_TYPE_SUFFIX.data).drop 8
      = PASSWORD_TYPE_SUFFIX.data := by
    rw [← hlen]
    exact List.drop_left _ _
  rw [hdl] at hdrop
  exact absurd hdrop (by decide)

theorem expiryKey_ne_index (n : String) :
    n ++ OTP_EXPIRY_SUFFIX ≠ APP_INDEX := by
  intro h
  have hd := congrArg String.data h
  rw [String.data_append] at hd
  have hlen : n.data.length = 2 := by
    have hl := congrArg List.length hd
    rw [List.length_append] at hl
    have h11 : OTP_EXPIRY_SUFFIX.data.length = 11 := rfl
    have h13 : APP_INDEX.data.length = 13 := rfl
    omega
  have hdrop := congrArg (List.drop 2) hd
  have hdl : (n.data ++ OTP_EXPIRY_SUFFIX.data).drop 2
      = OTP_EXPIRY_SUFFIX.data := by
    rw [← hlen]
    exact List.drop_left _ _
  rw [hdl] at hdrop
  exact absurd hdrop (by decide)

/-! ### `update_index` lemmas -/

theorem fetch_index_ok (s : Store) : ∃ index, fetch_index s = .ok index := by
  unfold fetch_index
  cases hg : storeGet s APP_INDEX with
  | ok data => exact ⟨_, rfl⟩
  | error e =>
    have he := storeGet_error_eq hg
    subst he
    exact ⟨[], rfl⟩

theorem update_index_reserved {n : String} (h : reserved_name n = true)
    (s : Store) (add : Bool) : update_index s n add = (.ok (), s) := by
  unfold update_index
  rw [if_pos h]

theorem update_index_fst (s : Store) (n : String) (add : Bool) :
    (update_index s n add).1 = .ok () := by
  by_cases hres : reserved_name n = true
  · rw [update_index_reserved hres]
  · obtain ⟨index, hf⟩ := fetch_index_ok s
    unfold update_index
    rw [if_neg hres, hf]
    dsimp only
    split
    · rfl
    · rfl

theorem update_index_get_ne {q : String} (hq : q ≠ APP_INDEX)
    (s : Store) (n : String) (add : Bool) :
    storeGet (update_index s n add).2 q = storeGet s q := by
  by_cases hres : reserved_name n = true
  · rw [update_index_reserved hres]
  · obtain ⟨index, hf⟩ := fetch_index_ok s
    unfold update_index
    rw [if_neg hres, hf]
    dsimp only
    split
    · exact storeGet_delete_ne hq s
    · exact storeGet_set_ne hq s _

/-! ### Pipeline lemmas -/

theorem save_to_keyring_eq (s : Store) (n p : String) :
    save_to_keyring s n p
      = (.ok (), (update_index (storeSet s n p) n true).2) := by
  unfold save_to_keyring
  dsimp only
  have h1 := update_index_fst (storeSet s n p) n true
  cases hu : update_index (storeSet s n p) n true with
  | mk r s2 =>
    rw [hu] at h1
    dsimp only at h1
    subst h1
    rfl

theorem save_to_keyring_get_self {n : String} (hni : n ≠ APP_INDEX)
    (s : Store) (p : String) :
    storeGet (save_to_keyring s n p).2 n = .ok p := by
  rw [save_to_keyring_eq]
  dsimp only
  rw [update_index_get_ne hni, storeGet_set_same]

theorem save_to_keyring_get_ne {n q : String} (hq : q ≠ n)
    (hqi : q ≠ APP_INDEX) (s : Store) (p : String) :
    storeGet (save_to_keyring s n p).2 q = storeGet s q := by
  rw [save_to_keyring_eq]
  dsimp only
  rw [update_index_get_ne hqi, storeGet_set_ne hq]

theorem delete_from_keyring_eq_of_ok {s : Store} {n v : String}
    (hv : storeGet s n = .ok v) :
    delete_from_keyring s n
      = (.ok (), (storeDelete (update_index (storeErase s n) n false).2
          (n ++ PASSWORD_TYPE_SUFFIX)).2) := by
  have hsd : storeDelete s n = (.ok (), storeErase s n) := by
    unfold storeDelete
    rw [hv]
  unfold delete_from_keyring
  rw [hsd]
  dsimp only
  have h1 := update_index_fst (storeErase s n) n false
  cases hu : update_index (storeErase s n) n false with
  | mk r s2 =>
    rw [hu] at h1
    dsimp only at h1
    subst h1
    rfl

theorem delete_from_keyring_eq_of_absent {s : Store} {n : String} {e : KeyringError}
    (hv : storeGet s n = .error e) :
    delete_from_keyring s n = (.error e, s) := by
  have hsd : storeDelete s n = (.error e, s) := by
    unfold storeDelete
    rw [hv]
  unfold delete_from_keyring
  rw [hsd]

theorem delete_otp_eq_of_ok {s : Store} {n v : String}
    (hv : storeGet s n = .ok v) :
    delete_otp s n
      = (.ok (), delete_otp_expiry
          ((storeDelete (update_index (storeErase s n) n false).2
            (n ++ PASSWORD_TYPE_SUFFIX)).2) n) := by
  unfold delete_otp
  rw [delete_from_keyring_eq_of_ok hv]

theorem gssp_of_present {s : Store} {name v : String}
    (h : storeGet s name = .ok v) (length : Option Nat) (r : String) :
    generate_save_safety_password s name length r = (.error .noEntry, s) := by
  unfold generate_save_safety_password
  rw [h]

theorem gssp_eq_of_absent {s : Store} {name : String}
    (h0 : storeGet s name = .error .noEntry) (length : Option Nat)
    (r : String) :
    generate_save_safety_password s name length r
      = (.ok (), (set_password_type (save_to_keyring s name r).2
          name "auto").2) := by
  unfold generate_save_safety_password
  rw [h0]
  dsimp only
  rw [save_to_keyring_eq]
  unfold set_password_type
  dsimp only

theorem gmp_eq_of_absent {s : Store} {name : String}
    (h0 : storeGet s name = .error .noEntry) (w1 : String) (n : Nat)
    (w2 : String) :
    generate_memorizable_password s name w1 n w2
      = (.ok (), (set_password_type
          (save_to_keyring s name (w1 ++ "-" ++ toString n ++ "-" ++ w2)).2
          name "auto").2) := by
  unfold generate_memorizable_password
  rw [h0]
  dsimp only
  rw [save_to_keyring_eq]
  unfold set_password_type
  dsimp only

theorem generate_otp_eq (s : Store) (name : String) (ttl length now : Nat)
    (otp : String) :
    generate_otp s name ttl length now otp
      = (.ok otp, (save_otp_expiry (set_password_type
          (save_to_keyring s name otp).2 name "auto").2
          name (now + ttl)).2) := by
  unfold generate_otp
  rw [save_to_keyring_eq]

theorem import_line_eq {line nm p : String}
    (hsplit : splitComma line = [nm, p]) (s : Store) :
    import_line s line
      = (.ok (), (set_password_type
          (save_to_keyring s (trimStr nm) (trimStr p)).2
          (trimStr nm) "custom").2) := by
  unfold import_line
  rw [hsplit]
  dsimp only
  rw [if_pos (by simp)]
  simp only [List.map, List.getD_cons_zero, List.getD_cons_succ]
  rw [save_to_keyring_eq]
  unfold set_password_type
  dsimp only

/-! ### String order and sort lemmas -/

theorem string_ext {a b : String} (h : a.data = b.data) : a = b :=
  congrArg String.mk h

theorem lexLe_total : ∀ l1 l2 : List Char, lexLe l1 l2 = true ∨ lexLe l2 l1 = true
  | [], _ => Or.inl rfl
  | _ :: _, [] => Or.inr rfl
  | a :: as, b :: bs => by
    by_cases hab : a = b
    · subst hab
      rcases lexLe_total as bs with h | h
      · exact Or.inl (by simpa [lexLe] using h)
      · exact Or.inr (by simpa [lexLe] using h)
    · have hba : ¬ b = a := fun hh => hab hh.symm
      rcases lt_or_gt_of_ne hab with h | h
      · exact Or.inl (by simp [lexLe, hab, h])
      · exact Or.inr (by simp [lexLe, hba, h])

theorem lexLe_trans : ∀ l1 l2 l3 : List Char,
    lexLe l1 l2 = true → lexLe l2 l3 = true → lexLe l1 l3 = true
  | [], _, _, _, _ => rfl
  | _ :: _, [], _, h1, _ => by simp [lexLe] at h1
  | _ :: _, _ :: _, [], _, h2 => by simp [lexLe] at h2
  | a :: as, b :: bs, c :: cs, h1, h2 => by
    by_cases hab : a = b
    · subst hab
      simp only [lexLe, if_pos rfl] at h1
      by_cases hbc : a = c
      · subst hbc
        simp only [lexLe, if_pos rfl] at h2 ⊢
        exact lexLe_trans as bs cs h1 h2
      · simp only [lexLe, if_neg hbc] at h2 ⊢
        exact h2
    · simp only [lexLe, if_neg hab] at h1
      have hab2 : a < b := of_decide_eq_true h1
      by_cases hbc : b = c
      · subst hbc
        simp only [lexLe, if_neg hab]
        exact h1
      · simp only [lexLe, if_neg hbc] at h2
        have hbc2 : b < c := of_decide_eq_true h2
        have hac : a < c := lt_trans hab2 hbc2
        simp only [lexLe, if_neg (ne_of_lt hac)]
        exact decide_eq_true hac

theorem lexLe_antisymm : ∀ l1 l2 : List Char,
    lexLe l1 l2 = true → lexLe l2 l1 = true → l1 = l2
  | [], [], _, _ => rfl
  | [], _ :: _, _, h2 => by simp [lexLe] at h2
  | _ :: _, [], h1, _ => by simp [lexLe] at h1
  | a :: as, b :: bs, h1, h2 => by
    by_cases hab : a = b
    · subst hab
      simp only [lexLe, if_pos rfl] at h1 h2
      rw [lexLe_antisymm as bs h1 h2]
    · exfalso
      have hba : ¬ b = a := fun hh => hab hh.symm
      simp only [lexLe, if_neg hab] at h1
      simp only [lexLe, if_neg hba] at h2
      exact absurd (of_decide_eq_true h1) (lt_asymm (of_decide_eq_true h2))

theorem strle_total (a b : String) : strle a b ∨ strle b a :=
  lexLe_total a.data b.data

theorem strle_trans (a b c : String) : strle a b → strle b c → strle a c :=
  lexLe_trans a.data b.data c.data

theorem strle_antisymm (a b : String) : strle a b → strle b a → a = b :=
  fun h1 h2 => string_ext (lexLe_antisymm a.data b.data h1 h2)

theorem sortStr_perm (l : List String) : List.Perm (sortStr l) l :=
  List.perm_insertionSort strle l

theorem sortStr_sorted (l : List String) : List.Sorted strle (sortStr l) := by
  haveI : IsTotal String strle := ⟨strle_total⟩
  haveI : IsTrans String strle := ⟨strle_trans⟩
  exact List.sorted_insertionSort strle l

theorem sortStr_mem {x : String} {l : List String} : x ∈ sortStr l ↔ x ∈ l :=
  (sortStr_perm l).mem_iff

theorem sortStr_ne_nil {l : List String} (h : l ≠ []) : sortStr l ≠ [] := by
  intro hcon
  have hl := (sortStr_perm l).length_eq
  rw [hcon] at hl
  exact h (List.length_eq_zero.mp hl.symm)

theorem sortStr_eq_of_mem_iff {l1 l2 : List String} (h1 : l1.Nodup)
    (h2 : l2.Nodup) (h : ∀ x, x ∈ l1 ↔ x ∈ l2) : sortStr l1 = sortStr l2 := by
  haveI : IsAntisymm String strle := ⟨strle_antisymm⟩
  have hp : List.Perm l1 l2 := (List.perm_ext_iff_of_nodup h1 h2).mpr h
  exact List.eq_of_perm_of_sorted
    (((sortStr_perm l1).trans hp).trans (sortStr_perm l2).symm)
    (sortStr_sorted l1) (sortStr_sorted l2)

/-! ### Set-as-list lemmas -/

theorem mem_setInsert {x y : String} {l : List String} :
    x ∈ setInsert l y ↔ x ∈ l ∨ x = y := by
  by_cases hy : y ∈ l
  · simp only [setInsert, if_pos hy]
    constructor
    · exact Or.inl
    · rintro (h | rfl)
      · exact h
      · exact hy
  · simp [setInsert, if_neg hy]

theorem nodup_setInsert {l : List String} (h : l.Nodup) (y : String) :
    (setInsert l y).Nodup := by
  by_cases hy : y ∈ l
  · simpa [setInsert, if_pos hy] using h
  · simp [setInsert, if_neg hy, List.nodup_append, h, hy]

theorem mem_setRemove {x y : String} {l : List String} :
    x ∈ setRemove l y ↔ x ∈ l ∧ x ≠ y := by
  simp [setRemove, List.mem_filter]

theorem nodup_setRemove {l : List String} (h : l.Nodup) (y : String) :
    (setRemove l y).Nodup :=
  h.filter _

theorem mem_foldl_setInsert : ∀ (l init : List String) (x : String),
    x ∈ l.foldl setInsert init ↔ x ∈ init ∨ x ∈ l
  | [], init, x => by simp
  | y :: ys, init, x => by
    rw [List.foldl_cons, mem_foldl_setInsert ys (setInsert init y) x,
      mem_setInsert]
    simp only [List.mem_cons]
    tauto

theorem mem_setOfList {x : String} {l : List String} :
    x ∈ setOfList l ↔ x ∈ l := by
  unfold setOfList
  rw [mem_foldl_setInsert]
  simp

theorem nodup_foldl_setInsert : ∀ (l init : List String), init.Nodup →
    (l.foldl setInsert init).Nodup
  | [], _, h => h
  | y :: ys, init, h =>
    nodup_foldl_setInsert ys (setInsert init y) (nodup_setInsert h y)

theorem setOfList_nodup (l : List String) : (setOfList l).Nodup :=
  nodup_foldl_setInsert l [] List.nodup_nil

theorem modified_false (index : List String) (n : String) :
    modified_index index n false = setRemove index n := rfl

theorem nodup_modified {index : List String} (h : index.Nodup)
    (n : String) (add : Bool) : (modified_index index n add).Nodup := by
  unfold modified_index
  split
  · exact nodup_setInsert h n
  · exact nodup_setRemove h n

/-! ### Trim lemmas -/

theorem mem_dropWhile {c : Char} {p : Char → Bool} {l : List Char}
    (h : c ∈ l.dropWhile p) : c ∈ l :=
  (List.dropWhile_sublist p).subset h

theorem mem_trimData {c : Char} {l : List Char} (h : c ∈ trimData l) :
    c ∈ l := by
  unfold trimData at h
  rw [List.mem_reverse] at h
  have h2 := mem_dropWhile h
  rw [List.mem_reverse] at h2
  exact mem_dropWhile h2

theorem mem_trimStr_data {c : Char} {v : String} (h : c ∈ (trimStr v).data) :
    c ∈ v.data :=
  mem_trimData h

theorem dropWhile_cons_head_false {p : Char → Bool} :
    ∀ {l : List Char} {c : Char} {t : List Char},
      l.dropWhile p = c :: t → p c = false
  | [], _, _, h => by simp at h
  | d :: r, c, t, h => by
    by_cases hd : p d = true
    · rw [List.dropWhile_cons, if_pos hd] at h
      exact dropWhile_cons_head_false h
    · rw [List.dropWhile_cons, if_neg hd] at h
      injection h with h1 _
      subst h1
      simpa using hd

theorem dropWhile_ws_idem (l : List Char) :
    (l.dropWhile Char.isWhitespace).dropWhile Char.isWhitespace
      = l.dropWhile Char.isWhitespace := by
  cases h : l.dropWhile Char.isWhitespace with
  | nil => rfl
  | cons c t =>
    rw [List.dropWhile_cons, dropWhile_cons_head_false h]
    simp

theorem dropWhile_append_last {l : List Char} {c : Char}
    (hc : Char.isWhitespace c = false) :
    ∃ pre, (l ++ [c]).dropWhile Char.isWhitespace = pre ++ [c] := by
  induction l with
  | nil => exact ⟨[], by simp [List.dropWhile_cons, hc]⟩
  | cons d t ih =>
    by_cases hd : Char.isWhitespace d = true
    · simpa [List.dropWhile_cons, hd] using ih
    · exact ⟨d :: t, by simp [List.dropWhile_cons, hd]⟩

theorem trimData_dropWhile (l : List Char) :
    (trimData l).dropWhile Char.isWhitespace = trimData l := by
  unfold trimData
  cases hA : l.dropWhile Char.isWhitespace with
  | nil => simp
  | cons c t =>
    have hc : Char.isWhitespace c = false := dropWhile_cons_head_false hA
    rw [List.reverse_cons]
    obtain ⟨pre, hpre⟩ := dropWhile_append_last (l := t.reverse) hc
    rw [hpre, List.reverse_append]
    simp [List.dropWhile_cons, hc]

theorem trimData_idem (l : List Char) : trimData (trimData l) = trimData l := by
  conv_lhs => rw [show trimData (trimData l)
    = (((trimData l).dropWhile Char.isWhitespace).reverse.dropWhile
        Char.isWhitespace).reverse from rfl]
  rw [trimData_dropWhile l]
  rw [show (trimData l).reverse
      = ((l.dropWhile Char.isWhitespace).reverse).dropWhile Char.isWhitespace
    from by unfold trimData; rw [List.reverse_reverse]]
  rw [dropWhile_ws_idem]
  rfl

theorem trimStr_idem (v : String) : trimStr (trimStr v) = trimStr v := by
  unfold trimStr
  rw [show (String.mk (trimData v.data)).data = trimData v.data from rfl]
  rw [trimData_idem]

/-! ### Split and join lemmas -/

theorem splitCommaAux_no_comma :
    ∀ (l acc : List Char), (∀ c ∈ acc, c ≠ ',') →
      ∀ e ∈ splitCommaAux l acc, ∀ c ∈ e.data, c ≠ ','
  | [], acc, hacc => by
    intro e he c hc
    simp only [splitCommaAux, List.mem_singleton] at he
    subst he
    rw [show (String.mk acc.reverse).data = acc.reverse from rfl] at hc
    exact hacc c (List.mem_reverse.mp hc)
  | d :: t, acc, hacc => by
    intro e he c hc
    by_cases hd : d = ','
    · simp only [splitCommaAux, if_pos hd] at he
      rcases List.mem_cons.mp he with h1 | h1
      · subst h1
        rw [show (String.mk acc.reverse).data = acc.reverse from rfl] at hc
        exact hacc c (List.mem_reverse.mp hc)
      · exact splitCommaAux_no_comma t [] (by simp) e h1 c hc
    · simp only [splitCommaAux, if_neg hd] at he
      refine splitCommaAux_no_comma t (d :: acc) ?_ e he c hc
      intro x hx
      rcases List.mem_cons.mp hx with h1 | h1
      · subst h1
        exact hd
      · exact hacc x h1

theorem splitComma_no_comma {data e : String} (he : e ∈ splitComma data) :
    ∀ c ∈ e.data, c ≠ ',' :=
  splitCommaAux_no_comma data.data [] (by simp) e he

theorem splitCommaAux_all {l : List Char} (h : ∀ c ∈ l, c ≠ ',') :
    ∀ acc, splitCommaAux l acc = [String.mk (acc.reverse ++ l)] := by
  induction l with
  | nil => intro acc; simp [splitCommaAux]
  | cons d t ih =>
    intro acc
    have hd : d ≠ ',' := h d (List.mem_cons_self d t)
    simp only [splitCommaAux, if_neg hd]
    rw [ih (fun c hc => h c (List.mem_cons_of_mem d hc))]
    simp [List.reverse_cons, List.append_assoc]

theorem splitCommaAux_append {l l2 : List Char} (h : ∀ c ∈ l, c ≠ ',') :
    ∀ acc, splitCommaAux (l ++ ',' :: l2) acc
      = String.mk (acc.reverse ++ l) :: splitCommaAux l2 [] := by
  induction l with
  | nil => intro acc; simp [splitCommaAux]
  | cons d t ih =>
    intro acc
    have hd : d ≠ ',' := h d (List.mem_cons_self d t)
    simp only [List.cons_append, List.append_eq, splitCommaAux, if_neg hd]
    rw [ih (fun c hc => h c (List.mem_cons_of_mem d hc))]
    simp [List.reverse_cons, List.append_assoc]

theorem splitComma_joinComma : ∀ {L : List String}, L ≠ [] →
    (∀ e ∈ L, ∀ c ∈ e.data, c ≠ ',') → splitComma (joinComma L) = L
  | [], h, _ => absurd rfl h
  | [x], _, hc => by
    unfold splitComma joinComma
    rw [splitCommaAux_all (hc x (by simp)) []]
    simp only [List.reverse_nil, List.nil_append]
  | x :: y :: rest, _, hc => by
    have hx : ∀ c ∈ x.data, c ≠ ',' := hc x (by simp)
    unfold splitComma
    rw [show joinComma (x :: y :: rest)
      = x ++ "," ++ joinComma (y :: rest) from rfl]
    rw [show (x ++ "," ++ joinComma (y :: rest)).data
        = x.data ++ ',' :: (joinComma (y :: rest)).data from by
      rw [String.data_append, String.data_append, List.append_assoc]
      rfl]
    rw [splitCommaAux_append hx []]
    simp only [List.reverse_nil, List.nil_append]
    rw [show String.mk x.data = x from rfl]
    have hrec := splitComma_joinComma (L := y :: rest) (by simp)
      (fun e he => hc e (List.mem_cons_of_mem x he))
    unfold splitComma at hrec
    rw [hrec]

theorem joinComma_eq_empty : ∀ {L : List String},
    joinComma L = "" → L = [] ∨ L = [""]
  | [], _ => Or.inl rfl
  | [x], h => by
    right
    rw [show joinComma [x] = x from rfl] at h
    rw [h]
  | x :: y :: rest, h => by
    exfalso
    have hl := congrArg String.length h
    rw [show joinComma (x :: y :: rest)
      = x ++ "," ++ joinComma (y :: rest) from rfl] at hl
    rw [String.length_append, String.length_append] at hl
    have h1 : ("," : String).length = 1 := rfl
    have h0 : ("" : String).length = 0 := rfl
    omega

/-! ### Parse lemmas -/

theorem parse_piece_some {piece e : String} (h : parse_piece piece = some e) :
    e = trimStr piece ∧ trimStr piece ≠ "" ∧
      reserved_name (trimStr piece) = false := by
  unfold parse_piece at h
  dsimp only at h
  by_cases h1 : (trimStr piece == "" || reserved_name (trimStr piece)) = true
  · rw [if_pos h1] at h
    simp at h
  · rw [if_neg h1] at h
    injection h with h2
    simp only [Bool.or_eq_true, not_or, Bool.not_eq_true] at h1
    refine ⟨h2.symm, ?_, h1.2⟩
    intro hcon
    rw [hcon] at h1
    simp at h1

theorem parse_piece_of_wf {e : String} (h : wfName e) : parse_piece e = some e := by
  obtain ⟨h1, _, h3, h4⟩ := h
  unfold parse_piece
  dsimp only
  rw [h3, h4, beq_eq_false_iff_ne.mpr h1]
  rfl

theorem parse_index_wf (data : String) : ∀ e ∈ parse_index data, wfName e := by
  intro e he
  unfold parse_index at he
  rw [mem_setOfList, List.mem_filterMap] at he
  obtain ⟨piece, hpiece, hpp⟩ := he
  obtain ⟨he1, he2, he3⟩ := parse_piece_some hpp
  subst he1
  refine ⟨he2, ?_, trimStr_idem piece, he3⟩
  intro c hc
  exact splitComma_no_comma hpiece c (mem_trimStr_data hc)

theorem filterMap_parse_id : ∀ {L : List String}, (∀ e ∈ L, wfName e) →
    L.filterMap parse_piece = L
  | [], _ => rfl
  | e :: rest, h => by
    rw [List.filterMap_cons_some (parse_piece_of_wf (h e (List.mem_cons_self e rest)))]
    rw [filterMap_parse_id (fun x hx => h x (List.mem_cons_of_mem e hx))]

theorem parse_index_of_wf {data : String}
    (h : ∀ e ∈ splitComma data, wfName e) :
    parse_index data = setOfList (splitComma data) := by
  unfold parse_index
  rw [filterMap_parse_id h]

theorem fetch_index_nodup {s : Store} {index : List String}
    (hf : fetch_index s = .ok index) : index.Nodup := by
  unfold fetch_index at hf
  cases hg : storeGet s APP_INDEX with
  | ok data =>
    rw [hg] at hf
    dsimp only at hf
    injection hf with hf2
    rw [← hf2]
    exact setOfList_nodup _
  | error e =>
    have he := storeGet_error_eq hg
    subst he
    rw [hg] at hf
    dsimp only at hf
    injection hf with hf2
    rw [← hf2]
    exact List.nodup_nil

theorem fetch_index_wf {s : Store} {index : List String}
    (hf : fetch_index s = .ok index) : ∀ e ∈ index, wfName e := by
  unfold fetch_index at hf
  cases hg : storeGet s APP_INDEX with
  | ok data =>
    rw [hg] at hf
    dsimp only at hf
    injection hf with hf2
    rw [← hf2]
    exact parse_index_wf data
  | error e =>
    have he := storeGet_error_eq hg
    subst he
    rw [hg] at hf
    dsimp only at hf
    injection hf with hf2
    rw [← hf2]
    simp

theorem reserved_false_ne_index {n : String} (h : reserved_name n = false) :
    n ≠ APP_INDEX := by
  intro hn
  subst hn
  exact absurd h (by decide)

/-! ### Index write-back characterization and the self-heal invariant -/

theorem update_remove_spec {st : Store} {nq : String}
    (hres : ¬ reserved_name nq = true) {index : List String}
    (hf : fetch_index st = .ok index) (data2 : String)
    (h2 : storeGet (update_index st nq false).2 APP_INDEX = .ok data2) :
    (∀ e ∈ splitComma data2, wfName e) ∧
    (∀ x ∈ splitComma data2, x ∈ index ∧ x ≠ nq) := by
  unfold update_index at h2
  rw [if_neg hres, hf] at h2
  dsimp only at h2
  rcases hM : modified_index index nq false with _ | ⟨x, xs⟩
  · rw [hM] at h2
    simp only [List.isEmpty_nil, if_true] at h2
    rw [storeGet_delete_self] at h2
    exact absurd h2 (by simp)
  · rw [hM] at h2
    simp only [List.isEmpty_cons, Bool.false_eq_true, if_false] at h2
    rw [storeGet_set_same] at h2
    injection h2 with h3
    have hMmem : ∀ z, z ∈ (x :: xs) → z ∈ index ∧ z ≠ nq := by
      intro z hz
      have hz2 : z ∈ setRemove index nq := by
        rw [← modified_false index nq, hM]
        exact hz
      exact mem_setRemove.mp hz2
    have hwfM : ∀ e ∈ x :: xs, wfName e := fun e he =>
      fetch_index_wf hf e (hMmem e he).1
    have hSLwf : ∀ e ∈ sortStr (x :: xs), wfName e := fun e he =>
      hwfM e (sortStr_mem.mp he)
    have hsplit : splitComma (joinComma (sortStr (x :: xs)))
        = sortStr (x :: xs) :=
      splitComma_joinComma (sortStr_ne_nil (by simp))
        (fun e he => (hSLwf e he).2.1)
    rw [← h3, hsplit]
    constructor
    · exact hSLwf
    · intro z hz
      exact hMmem z (sortStr_mem.mp hz)

theorem J_established {n : String} (hres : ¬ reserved_name n = true)
    (st : Store) : J n (update_index st n false).2 := by
  obtain ⟨index, hf⟩ := fetch_index_ok st
  intro data h
  obtain ⟨hwf, hmem⟩ := update_remove_spec hres hf data h
  exact ⟨hwf, fun hc => (hmem n hc).2 rfl⟩

theorem J_preserved {n m : String} {st : Store} (hJ : J n st) :
    J n (update_index st m false).2 := by
  by_cases hrm : reserved_name m = true
  · rw [update_index_reserved hrm]
    exact hJ
  · obtain ⟨index, hf⟩ := fetch_index_ok st
    have hnidx : n ∉ index := by
      intro hin
      unfold fetch_index at hf
      cases hg : storeGet st APP_INDEX with
      | ok data0 =>
        rw [hg] at hf
        dsimp only at hf
        injection hf with hf2
        obtain ⟨hwf0, hn0⟩ := hJ data0 hg
        rw [← hf2, parse_index_of_wf hwf0, mem_setOfList] at hin
        exact hn0 hin
      | error e =>
        have he := storeGet_error_eq hg
        subst he
        rw [hg] at hf
        dsimp only at hf
        injection hf with hf2
        rw [← hf2] at hin
        simp at hin
    intro data2 h2
    obtain ⟨hwf, hmem⟩ := update_remove_spec hrm hf data2 h2
    exact ⟨hwf, fun hc => hnidx (hmem n hc).1⟩

/-! ### Listing loop lemmas -/

theorem show_list_loop_get_ne {q : String} (hq : q ≠ APP_INDEX) :
    ∀ (names : List String) (st : Store),
      storeGet (show_list_loop st names).2 q = storeGet st q
  | [], _ => rfl
  | m :: rest, st => by
    unfold show_list_loop
    split
    · exact show_list_loop_get_ne hq rest st
    · cases hg : get_from_keyring st m with
      | ok pw =>
        dsimp only
        exact show_list_loop_get_ne hq rest st
      | error e =>
        dsimp only
        rw [show_list_loop_get_ne hq rest _, update_index_get_ne hq]

theorem J_loop {n : String} :
    ∀ (names : List String) (st : Store), J n st →
      J n (show_list_loop st names).2
  | [], _, hJ => hJ
  | m :: rest, st, hJ => by
    unfold show_list_loop
    split
    · exact J_loop rest st hJ
    · cases hg : get_from_keyring st m with
      | ok pw =>
        dsimp only
        exact J_loop rest st hJ
      | error e =>
        dsimp only
        exact J_loop rest _ (J_preserved hJ)

theorem show_list_loop_out :
    ∀ (names : List String) (st : Store) (n pw : String),
      (n, pw) ∈ (show_list_loop st names).1 →
      reserved_name n = false ∧ storeGet st n = .ok pw
  | [], st, n, pw, h => by simp [show_list_loop] at h
  | m :: rest, st, n, pw, h => by
    unfold show_list_loop at h
    by_cases hrm : reserved_name m = true
    · rw [if_pos hrm] at h
      exact show_list_loop_out rest st n pw h
    · rw [if_neg hrm] at h
      cases hg : get_from_keyring st m with
      | ok pw0 =>
        rw [hg] at h
        dsimp only at h
        rcases List.mem_cons.mp h with h1 | h1
        · rw [Prod.mk.injEq] at h1
          obtain ⟨h1a, h1b⟩ := h1
          subst h1a
          subst h1b
          exact ⟨by simpa using hrm, hg⟩
        · exact show_list_loop_out rest st n pw h1
      | error e =>
        rw [hg] at h
        dsimp only at h
        obtain ⟨hres2, hget2⟩ := show_list_loop_out rest _ n pw h
        refine ⟨hres2, ?_⟩
        rw [update_index_get_ne (reserved_false_ne_index hres2)] at hget2
        exact hget2

theorem show_list_loop_heals {n : String} (hres : reserved_name n = false) :
    ∀ (names : List String) (st : Store), n ∈ names →
      storeGet st n = .error .noEntry →
      J n (show_list_loop st names).2
  | [], _, hmem, _ => absurd hmem (List.not_mem_nil n)
  | m :: rest, st, hmem, horph => by
    unfold show_list_loop
    by_cases hrm : reserved_name m = true
    · rw [if_pos hrm]
      have hnm : n ≠ m := by
        intro h
        rw [← h] at hrm
        rw [hres] at hrm
        exact absurd hrm (by simp)
      have hmem2 : n ∈ rest := by
        rcases List.mem_cons.mp hmem with h | h
        · exact absurd h hnm
        · exact h
      exact show_list_loop_heals hres rest st hmem2 horph
    · rw [if_neg hrm]
      cases hg : get_from_keyring st m with
      | ok pw =>
        dsimp only
        have hnm : n ≠ m := by
          intro h
          rw [← h] at hg
          unfold get_from_keyring at hg
          rw [horph] at hg
          simp at hg
        have hmem2 : n ∈ rest := by
          rcases List.mem_cons.mp hmem with h | h
          · exact absurd h hnm
          · exact h
        exact show_list_loop_heals hres rest st hmem2 horph
      | error e =>
        dsimp only
        by_cases hnm : n = m
        · subst hnm
          exact J_loop rest _ (J_established (by simp [hres]) st)
        · have hmem2 : n ∈ rest := by
            rcases List.mem_cons.mp hmem with h | h
            · exact absurd h hnm
            · exact h
          have horph2 : storeGet (update_index st m false).2 n
              = .error .noEntry := by
            rw [update_index_get_ne (reserved_false_ne_index hres)]
            exact horph
          exact show_list_loop_heals hres rest _ hmem2 horph2

/-! ### Claim C1 -/

/-- Claim C1, counterexample: the claim says a successful `delete(name)`
removes both metadata records, but `delete_from_keyring` (the lifecycle
`delete`) only cascades to `<name>_type`: starting from a store holding the
entry `a`, its index membership, and both metadata records, the delete
returns `Ok` while the `a_otp_expiry` record is still present afterwards. -/
theorem C1_counterexample :
    (delete_from_keyring
      [("a", "pw"), ("apppass_index", "a"), ("a_type", "auto"),
        ("a_otp_expiry", "123")] "a").1 = .ok () ∧
    storeGet (delete_from_keyring
      [("a", "pw"), ("apppass_index", "a"), ("a_type", "auto"),
        ("a_otp_expiry", "123")] "a").2 ("a" ++ OTP_EXPIRY_SUFFIX)
      = .ok "123" := by
  constructor
  · decide
  · decide

/-- Claim C1, amended: a successful `delete_from_keyring(name)` removes the
entry and the `<name>_type` record (a missing metadata record is not an
error) but leaves the `<name>_otp_expiry` record exactly as it was; only
`delete_otp(name)` removes the entry together with both metadata records,
and it too returns `Ok` whether or not the metadata records existed. -/
theorem C1_delete_cascade_amended (s : Store) (name v : String)
    (hni : name ≠ APP_INDEX) (hv : storeGet s name = .ok v) :
    (delete_otp s name).1 = .ok () ∧
    storeGet (delete_otp s name).2 name = .error .noEntry ∧
    storeGet (delete_otp s name).2 (name ++ PASSWORD_TYPE_SUFFIX)
      = .error .noEntry ∧
    storeGet (delete_otp s name).2 (name ++ OTP_EXPIRY_SUFFIX)
      = .error .noEntry ∧
    storeGet (delete_from_keyring s name).2 (name ++ OTP_EXPIRY_SUFFIX)
      = storeGet s (name ++ OTP_EXPIRY_SUFFIX) := by
  rw [delete_otp_eq_of_ok hv, delete_from_keyring_eq_of_ok hv]
  dsimp only
  unfold delete_otp_expiry
  refine ⟨rfl, ?_, ?_, ?_, ?_⟩
  · rw [storeGet_delete_ne (Ne.symm (expiryKey_ne_self name)),
      storeGet_delete_ne (Ne.symm (typeKey_ne_self name)),
      update_index_get_ne hni, storeGet_erase_self]
  · rw [storeGet_delete_ne (typeKey_ne_expiryKey name),
      storeGet_delete_self]
  · rw [storeGet_delete_self]
  · rw [storeGet_delete_ne (Ne.symm (typeKey_ne_expiryKey name)),
      update_index_get_ne (expiryKey_ne_index name),
      storeGet_erase_ne (expiryKey_ne_self name)]

/-- Claim C1, witness: the amended theorem applied to the one-entry store
`[("a", "pw")]`, where neither metadata record exists. -/
theorem C1_delete_cascade_amended_witness :
    ("a" : String) ≠ APP_INDEX ∧
    storeGet [("a", "pw")] "a" = .ok "pw" ∧
    ((delete_otp [("a", "pw")] "a").1 = .ok () ∧
      storeGet (delete_otp [("a", "pw")] "a").2 "a" = .error .noEntry ∧
      storeGet (delete_otp [("a", "pw")] "a").2 ("a" ++ PASSWORD_TYPE_SUFFIX)
        = .error .noEntry ∧
      storeGet (delete_otp [("a", "pw")] "a").2 ("a" ++ OTP_EXPIRY_SUFFIX)
        = .error .noEntry ∧
      storeGet (delete_from_keyring [("a", "pw")] "a").2
          ("a" ++ OTP_EXPIRY_SUFFIX)
        = storeGet [("a", "pw")] ("a" ++ OTP_EXPIRY_SUFFIX)) :=
  ⟨by decide, by decide,
    C1_delete_cascade_amended [("a", "pw")] "a" "pw" (by decide) (by decide)⟩

/-! ### Claim C2 -/

/-- Claim C2, counterexample: the claim says `generate_otp` is guarded by
the same existence pre-check as `create_auto` and leaves an existing secret
unchanged, but the source has no pre-check: on a store where `x` already
holds `"old"`, `generate_otp` succeeds and overwrites the secret. -/
theorem C2_counterexample :
    storeGet [("x", "old")] "x" = .ok "old" ∧
    (generate_otp [("x", "old")] "x" 300 30 1000 "newpw").1 = .ok "newpw" ∧
    storeGet (generate_otp [("x", "old")] "x" 300 30 1000 "newpw").2 "x"
      = .ok "newpw" := by
  refine ⟨by decide, by decide, by decide⟩

/-- Claim C2, amended: `generate_otp(name, ttl, length)` performs no
existence pre-check at all: for every starting store (whether or not an
entry with `name` exists) it returns the sampled OTP and the store
afterwards maps `name` to that OTP, so a pre-existing secret is
overwritten rather than protected. -/
theorem C2_generate_otp_no_guard (s : Store) (name : String)
    (ttl length now : Nat) (otp : String) (hni : name ≠ APP_INDEX) :
    (generate_otp s name ttl length now otp).1 = .ok otp ∧
    storeGet (generate_otp s name ttl length now otp).2 name = .ok otp := by
  rw [generate_otp_eq]
  dsimp only
  refine ⟨rfl, ?_⟩
  unfold save_otp_expiry set_password_type
  dsimp only
  rw [storeGet_set_ne (Ne.symm (expiryKey_ne_self name)),
    storeGet_set_ne (Ne.symm (typeKey_ne_self name)),
    save_to_keyring_get_self hni]

/-- Claim C2, witness: the amended theorem applied to a store that already
holds an entry named `x`. -/
theorem C2_generate_otp_no_guard_witness :
    ("x" : String) ≠ APP_INDEX ∧
    ((generate_otp [("x", "old")] "x" 300 30 1000 "npw").1 = .ok "npw" ∧
      storeGet (generate_otp [("x", "old")] "x" 300 30 1000 "npw").2 "x"
        = .ok "npw") :=
  ⟨by decide, C2_generate_otp_no_guard [("x", "old")] "x" 300 30 1000 "npw"
    (by decide)⟩


/-! ### Claim C3 -/

/-- Claim C3, counterexample: the claim says an empty-string index is
never persisted and that a write-back whose post-filter set of real entry
names is empty deletes the record.  The canonical `update_index` filters
only at parse time and inserts `app_name` unfiltered: adding the empty
name (reachable through `save_to_keyring("", pw)`, e.g. from an import
line whose name field trims to empty) yields the set `{""}`, which is
non-empty, so the record is written — and `joinComma [""]` is the empty
string.  `parse_piece "" = none` shows the program itself does not count
`""` as a real entry name, so the post-filter set of real names is empty,
yet the record is persisted as `""` rather than deleted. -/
theorem C3_counterexample :
    parse_piece "" = none ∧
    modified_index [] "" true = [""] ∧
    storeGet (update_index [] "" true).2 APP_INDEX = .ok "" := by
  refine ⟨by decide, by decide, by decide⟩

/-- Claim C3, amended: for every `update_index` write-back (add or remove)
whose post-modification set is empty, the index record is deleted rather
than written — in particular removing the last real name collapses the
record to missing; however the inserted name itself is not re-filtered,
and a persisted empty-string index is possible in exactly one degenerate
case: the post-modification set is `[""]`, i.e. the empty name was added. -/
theorem C3_empty_collapse_amended (s : Store) (name : String) (add : Bool)
    (index : List String) (hres : reserved_name name = false)
    (hf : fetch_index s = .ok index) :
    (modified_index index name add = [] →
      storeGet (update_index s name add).2 APP_INDEX = .error .noEntry) ∧
    (∀ v, storeGet (update_index s name add).2 APP_INDEX = .ok v → v = "" →
      modified_index index name add = [""]) := by
  unfold update_index
  rw [if_neg (by simp [hres]), hf]
  dsimp only
  rcases hM : modified_index index name add with _ | ⟨x, xs⟩
  · simp only [List.isEmpty_nil, if_true]
    constructor
    · intro _
      exact storeGet_delete_self s APP_INDEX
    · intro v hv
      rw [storeGet_delete_self] at hv
      exact absurd hv (by simp)
  · simp only [List.isEmpty_cons, Bool.false_eq_true, if_false]
    constructor
    · intro h
      exact absurd h (by simp)
    · intro v hv hve
      rw [storeGet_set_same] at hv
      injection hv with hv2
      rw [hve] at hv2
      rcases joinComma_eq_empty hv2 with h | h
      · exact absurd h (sortStr_ne_nil (by simp))
      · have hperm : List.Perm (x :: xs) [""] :=
          (h ▸ (sortStr_perm (x :: xs)).symm : List.Perm (x :: xs) [""])
        exact List.perm_singleton.mp hperm

/-- Claim C3, witness: removing the last name deletes the index record,
and the degenerate persisted-empty-string case forces the set `[""]`. -/
theorem C3_empty_collapse_amended_witness :
    reserved_name "a" = false ∧
    fetch_index [("apppass_index", "a")] = .ok ["a"] ∧
    modified_index ["a"] "a" false = [] ∧
    storeGet (update_index [("apppass_index", "a")] "a" false).2 APP_INDEX
      = .error .noEntry ∧
    modified_index [] "" true = [""] :=
  ⟨by decide, by decide, by decide,
    (C3_empty_collapse_amended [("apppass_index", "a")] "a" false ["a"]
      (by decide) (by decide)).1 (by decide),
    (C3_empty_collapse_amended [] "" true [] (by decide) (by decide)).2
      "" (by decide) rfl⟩

/-! ### Claim C4 -/

/-- Claim C4: the canonical `update_index` sorts the post-modification set
lexicographically before joining (src/src/app/keyring.rs:124-127): every
persisted multi-name index value is the comma-join of the sorted set, that
list is sorted under the Rust string order, and any two write-backs whose
post-modification sets have equal membership persist byte-identical index
values. -/
theorem C4_sorted_join (s : Store) (name : String) (add : Bool)
    (index : List String) (hres : reserved_name name = false)
    (hf : fetch_index s = .ok index)
    (hne : modified_index index name add ≠ []) :
    storeGet (update_index s name add).2 APP_INDEX
      = .ok (joinComma (sortStr (modified_index index name add))) ∧
    List.Sorted strle (sortStr (modified_index index name add)) ∧
    (∀ (s2 : Store) (index2 : List String), fetch_index s2 = .ok index2 →
      (∀ x, x ∈ modified_index index2 name add ↔
        x ∈ modified_index index name add) →
      storeGet (update_index s2 name add).2 APP_INDEX
        = storeGet (update_index s name add).2 APP_INDEX) := by
  have hmain : ∀ (s3 : Store) (index3 : List String),
      fetch_index s3 = .ok index3 → modified_index index3 name add ≠ [] →
      storeGet (update_index s3 name add).2 APP_INDEX
        = .ok (joinComma (sortStr (modified_index index3 name add))) := by
    intro s3 index3 hf3 hne3
    unfold update_index
    rw [if_neg (by simp [hres]), hf3]
    dsimp only
    rcases hM : modified_index index3 name add with _ | ⟨x, xs⟩
    · exact absurd hM hne3
    · simp only [List.isEmpty_cons, Bool.false_eq_true, if_false]
      exact storeGet_set_same s3 APP_INDEX _
  refine ⟨hmain s index hf hne, sortStr_sorted _, ?_⟩
  intro s2 index2 hf2 hiff
  have hne2 : modified_index index2 name add ≠ [] := by
    rcases hM : modified_index index name add with _ | ⟨x, xs⟩
    · exact absurd hM hne
    · intro hcon
      have hx : x ∈ modified_index index2 name add :=
        (hiff x).mpr (hM ▸ List.mem_cons_self x xs)
      rw [hcon] at hx
      simp at hx
  rw [hmain s index hf hne, hmain s2 index2 hf2 hne2,
    sortStr_eq_of_mem_iff (nodup_modified (fetch_index_nodup hf2) name add)
      (nodup_modified (fetch_index_nodup hf) name add) hiff]

/-- Claim C4, witness: adding `c` to the same membership set `{a, b}`
stored as `"b,a"` and as `"a,b"` persists the identical sorted value
`"a,b,c"` in both cases. -/
theorem C4_sorted_join_witness :
    reserved_name "c" = false ∧
    fetch_index [("apppass_index", "b,a")] = .ok ["b", "a"] ∧
    modified_index ["b", "a"] "c" true ≠ [] ∧
    storeGet (update_index [("apppass_index", "b,a")] "c" true).2 APP_INDEX
      = .ok (joinComma (sortStr (modified_index ["b", "a"] "c" true))) ∧
    joinComma (sortStr (modified_index ["b", "a"] "c" true)) = "a,b,c" ∧
    storeGet (update_index [("apppass_index", "a,b")] "c" true).2 APP_INDEX
      = storeGet (update_index [("apppass_index", "b,a")] "c" true).2
          APP_INDEX :=
  ⟨by decide, by decide, by decide,
    (C4_sorted_join [("apppass_index", "b,a")] "c" true ["b", "a"]
      (by decide) (by decide) (by decide)).1,
    by decide,
    (C4_sorted_join [("apppass_index", "b,a")] "c" true ["b", "a"]
      (by decide) (by decide) (by decide)).2.2
      [("apppass_index", "a,b")] ["a", "b"] (by decide) (by
        intro x
        rw [show modified_index ["a", "b"] "c" true = ["a", "b", "c"]
          from by decide]
        rw [show modified_index ["b", "a"] "c" true = ["b", "a", "c"]
          from by decide]
        simp only [List.mem_cons]
        tauto)⟩

/-! ### Claim C5 -/

/-- Claim C5: the canonical `show_list_applications` self-heals: a name
listed in the index whose entry read fails is skipped in the printed
output and removed from the index via `update_index(name, false)`
(src/src/app/keyring.rs:168-172), so after the listing runs the orphaned
name is no longer present in the index record. -/
theorem C5_show_list_self_heals (s : Store) (data orphan : String)
    (hidx : storeGet s APP_INDEX = .ok data)
    (hmem : orphan ∈ splitComma data) (hoe : orphan ≠ "")
    (hres : reserved_name orphan = false)
    (horph : get_from_keyring s orphan = .error .noEntry) :
    (∀ pw, (orphan, pw) ∉ (show_list_applications s).1) ∧
    (∀ data2, storeGet (show_list_applications s).2 APP_INDEX = .ok data2 →
      orphan ∉ splitComma data2) := by
  unfold show_list_applications
  rw [hidx]
  dsimp only
  have hmem2 : orphan ∈ (splitComma data).filter (fun n => !(n == "")) := by
    rw [List.mem_filter]
    exact ⟨hmem, by simp [hoe]⟩
  have horph2 : storeGet s orphan = .error .noEntry := horph
  constructor
  · intro pw hc
    obtain ⟨_, hget⟩ := show_list_loop_out _ s orphan pw hc
    rw [horph2] at hget
    simp at hget
  · intro data2 h2
    exact (show_list_loop_heals hres _ s hmem2 horph2 data2 h2).2

/-- Claim C5, witness: with the index record forced to `"ghost,real"` and
no entry behind `ghost`, the listing prints only `real` and the index
record afterwards is `"real"` — the orphan is gone. -/
theorem C5_show_list_self_heals_witness :
    storeGet [("apppass_index", "ghost,real"), ("real", "pw")] APP_INDEX
      = .ok "ghost,real" ∧
    "ghost" ∈ splitComma "ghost,real" ∧
    reserved_name "ghost" = false ∧
    get_from_keyring [("apppass_index", "ghost,real"), ("real", "pw")]
      "ghost" = .error .noEntry ∧
    (∀ pw, ("ghost", pw) ∉ (show_list_applications
      [("apppass_index", "ghost,real"), ("real", "pw")]).1) ∧
    (∀ data2, storeGet (show_list_applications
        [("apppass_index", "ghost,real"), ("real", "pw")]).2 APP_INDEX
      = .ok data2 → "ghost" ∉ splitComma data2) ∧
    (show_list_applications
      [("apppass_index", "ghost,real"), ("real", "pw")]).1
      = [("real", "pw")] ∧
    storeGet (show_list_applications
        [("apppass_index", "ghost,real"), ("real", "pw")]).2 APP_INDEX
      = .ok "real" :=
  have hmain := C5_show_list_self_heals
    [("apppass_index", "ghost,real"), ("real", "pw")] "ghost,real" "ghost"
    (by decide) (by decide) (by decide) (by decide) (by decide)
  ⟨by decide, by decide, by decide, by decide,
    hmain.1, hmain.2, by decide, by decide⟩

/-! ### Claim C6 -/

/-- Claim C6: duplicate create is rejected: for every name that does not
yet resolve, a first `generate_save_safety_password` (the `create_auto`
operation) succeeds and stores the generated value; a second call for the
same name fails (the pre-check branch returns the error the lifecycle
layer uses to signal "already exists", carried by the `NoEntry` variant)
and leaves the store — in particular the first value — completely
unchanged. -/
theorem C6_duplicate_create_rejected (s : Store) (name : String)
    (length : Option Nat) (r1 r2 : String) (hni : name ≠ APP_INDEX)
    (h0 : storeGet s name = .error .noEntry) :
    (generate_save_safety_password s name length r1).1 = .ok () ∧
    storeGet (generate_save_safety_password s name length r1).2 name
      = .ok r1 ∧
    (generate_save_safety_password
        (generate_save_safety_password s name length r1).2 name length r2).1
      = .error .noEntry ∧
    (generate_save_safety_password
        (generate_save_safety_password s name length r1).2 name length r2).2
      = (generate_save_safety_password s name length r1).2 := by
  have hget : storeGet (generate_save_safety_password s name length r1).2 name
      = .ok r1 := by
    rw [gssp_eq_of_absent h0]
    dsimp only
    unfold set_password_type
    dsimp only
    rw [storeGet_set_ne (Ne.symm (typeKey_ne_self name)),
      save_to_keyring_get_self hni]
  refine ⟨?_, hget, ?_, ?_⟩
  · rw [gssp_eq_of_absent h0]
  · rw [gssp_of_present hget]
  · rw [gssp_of_present hget]

/-- Claim C6, witness: the scenario of the claim run on the empty store
with the name `gmail`. -/
theorem C6_duplicate_create_rejected_witness :
    ("gmail" : String) ≠ APP_INDEX ∧
    storeGet [] "gmail" = .error .noEntry ∧
    ((generate_save_safety_password [] "gmail" none "pw1").1 = .ok () ∧
      storeGet (generate_save_safety_password [] "gmail" none "pw1").2 "gmail"
        = .ok "pw1" ∧
      (generate_save_safety_password
          (generate_save_safety_password [] "gmail" none "pw1").2
          "gmail" none "pw2").1
        = .error .noEntry ∧
      (generate_save_safety_password
          (generate_save_safety_password [] "gmail" none "pw1").2
          "gmail" none "pw2").2
        = (generate_save_safety_password [] "gmail" none "pw1").2) :=
  ⟨by decide, by decide,
    C6_duplicate_create_rejected [] "gmail" none "pw1" "pw2"
      (by decide) (by decide)⟩


/-! ### Claim C7 -/

/-- Claim C7: every successful `generate_memorizable_password` stores a
value of the shape `Word-NN-Word` with both words drawn from the fixed
word list and `NN` a two-digit number in the inclusive range 10 to 99:
the `gen_range(10..99)` sampler yields values in 10..=98, all of which lie
in that range. -/
theorem C7_memorizable_shape (s : Store) (name w1 w2 : String)
    (n : Nat) (hni : name ≠ APP_INDEX)
    (h0 : storeGet s name = .error .noEntry)
    (hw1 : w1 ∈ memorizable_words) (hw2 : w2 ∈ memorizable_words)
    (hn : n ∈ gen_range_10_99) :
    (generate_memorizable_password s name w1 n w2).1 = .ok () ∧
    storeGet (generate_memorizable_password s name w1 n w2).2 name
      = .ok (w1 ++ "-" ++ toString n ++ "-" ++ w2) ∧
    w1 ∈ memorizable_words ∧ w2 ∈ memorizable_words ∧
    10 ≤ n ∧ n ≤ 99 := by
  have hb : 10 ≤ n ∧ n ≤ 99 := by
    have hn2 : n ∈ Finset.Ico 10 99 := hn
    have := Finset.mem_Ico.mp hn2
    omega
  refine ⟨?_, ?_, hw1, hw2, hb.1, hb.2⟩
  · rw [gmp_eq_of_absent h0]
  · rw [gmp_eq_of_absent h0]
    dsimp only
    unfold set_password_type
    dsimp only
    rw [storeGet_set_ne (Ne.symm (typeKey_ne_self name)),
      save_to_keyring_get_self hni]

/-- Claim C7, witness: the theorem at the concrete draw `Sky`, 42, `Sun`
on the empty store. -/
theorem C7_memorizable_shape_witness :
    ("memo" : String) ≠ APP_INDEX ∧
    storeGet [] "memo" = .error .noEntry ∧
    ("Sky" : String) ∈ memorizable_words ∧
    ("Sun" : String) ∈ memorizable_words ∧
    42 ∈ gen_range_10_99 ∧
    ((generate_memorizable_password [] "memo" "Sky" 42 "Sun").1 = .ok () ∧
      storeGet (generate_memorizable_password [] "memo" "Sky" 42 "Sun").2
          "memo"
        = .ok ("Sky" ++ "-" ++ toString 42 ++ "-" ++ "Sun") ∧
      ("Sky" : String) ∈ memorizable_words ∧
      ("Sun" : String) ∈ memorizable_words ∧
      10 ≤ 42 ∧ 42 ≤ 99) :=
  ⟨by decide, by decide, by decide, by decide, by decide,
    C7_memorizable_shape [] "memo" "Sky" "Sun" 42
      (by decide) (by decide) (by decide) (by decide) (by decide)⟩

/-! ### Claim C8 -/

/-- Claim C8: `is_otp_expired` treats a missing `<name>_otp_expiry` record
as "not an OTP, therefore not expired" and returns `false` without error,
and for a name whose expiry record parses to the timestamp `e` it returns
`true` exactly when the current Unix time has reached `e`. -/
theorem C8_is_expired_policy (s : Store) (name : String) (now : Nat) :
    (storeGet s (name ++ OTP_EXPIRY_SUFFIX) = .error .noEntry →
      is_otp_expired s name now = false) ∧
    (∀ v e, storeGet s (name ++ OTP_EXPIRY_SUFFIX) = .ok v →
      parse_u64 v = some e →
      (is_otp_expired s name now = true ↔ e ≤ now)) := by
  constructor
  · intro h
    unfold is_otp_expired get_otp_expiry
    rw [h]
  · intro v e hv hp
    unfold is_otp_expired get_otp_expiry
    rw [hv]
    dsimp only
    rw [hp]
    simp

/-- Claim C8, witness: a store with expiry `5` read at time 7 is expired,
and a store with no expiry record is never expired. -/
theorem C8_is_expired_policy_witness :
    storeGet ([("a_otp_expiry", "5")] : Store) ("a" ++ OTP_EXPIRY_SUFFIX)
      = .ok "5" ∧
    parse_u64 "5" = some 5 ∧
    is_otp_expired [("a_otp_expiry", "5")] "a" 7 = true ∧
    storeGet ([] : Store) ("a" ++ OTP_EXPIRY_SUFFIX) = .error .noEntry ∧
    is_otp_expired [] "a" 7 = false :=
  ⟨by decide, by decide,
    ((C8_is_expired_policy [("a_otp_expiry", "5")] "a" 7).2 "5" 5
      (by decide) (by decide)).mpr (by decide),
    by decide,
    (C8_is_expired_policy [] "a" 7).1 (by decide)⟩

/-! ### Claim C9 -/

/-- Claim C9: a stored `<name>_otp_expiry` value that does not parse as an
unsigned 64-bit integer makes `get_otp_expiry` return `none` without
error, so `is_otp_expired` reports `false` and the startup sweep's
per-name step leaves the store untouched — the entry behaves exactly like
a non-OTP entry: never expired, never auto-deleted. -/
theorem C9_malformed_expiry_inert (s : Store) (name v : String) (now : Nat)
    (hv : storeGet s (name ++ OTP_EXPIRY_SUFFIX) = .ok v)
    (hp : parse_u64 v = none) :
    get_otp_expiry s name = none ∧
    is_otp_expired s name now = false ∧
    cleanup_step s now name = s := by
  have hg : get_otp_expiry s name = none := by
    unfold get_otp_expiry
    rw [hv]
    dsimp only
    rw [hp]
  refine ⟨hg, ?_, ?_⟩
  · unfold is_otp_expired
    rw [hg]
  · unfold cleanup_step
    rw [hg]
    split
    · rfl
    · rfl

/-- Claim C9, witness: the malformed expiry value `"xyz"` on an indexed
entry at a late clock time: nothing is deleted. -/
theorem C9_malformed_expiry_inert_witness :
    storeGet ([("apppass_index", "a"), ("a", "pw"), ("a_otp_expiry", "xyz")]
        : Store) ("a" ++ OTP_EXPIRY_SUFFIX) = .ok "xyz" ∧
    parse_u64 "xyz" = none ∧
    (get_otp_expiry
        [("apppass_index", "a"), ("a", "pw"), ("a_otp_expiry", "xyz")] "a"
      = none ∧
    is_otp_expired
        [("apppass_index", "a"), ("a", "pw"), ("a_otp_expiry", "xyz")] "a" 99
      = false ∧
    cleanup_step
        [("apppass_index", "a"), ("a", "pw"), ("a_otp_expiry", "xyz")] 99 "a"
      = [("apppass_index", "a"), ("a", "pw"), ("a_otp_expiry", "xyz")]) :=
  ⟨by decide, by decide,
    C9_malformed_expiry_inert
      [("apppass_index", "a"), ("a", "pw"), ("a_otp_expiry", "xyz")]
      "a" "xyz" 99 (by decide) (by decide)⟩

/-! ### Claim C10 -/

/-- Claim C10: `import_passwords` trims leading and trailing whitespace
from both comma-split fields of every well-formed line before storing: the
entry is keyed by the trimmed name and holds the trimmed secret, marked
`custom`; consequently a secret that carried surrounding spaces in the
file does not round-trip byte-identically. -/
theorem C10_import_trims_fields (s : Store) (line nm p : String)
    (hsplit : splitComma line = [nm, p]) (hni : trimStr nm ≠ APP_INDEX) :
    (import_passwords s [line]).1 = .ok () ∧
    storeGet (import_passwords s [line]).2 (trimStr nm) = .ok (trimStr p) ∧
    storeGet (import_passwords s [line]).2
        (trimStr nm ++ PASSWORD_TYPE_SUFFIX) = .ok "custom" ∧
    (trimStr p ≠ p →
      storeGet (import_passwords s [line]).2 (trimStr nm) ≠ .ok p) := by
  have hline : import_passwords s [line]
      = (.ok (), (set_password_type
          (save_to_keyring s (trimStr nm) (trimStr p)).2
          (trimStr nm) "custom").2) := by
    simp only [import_passwords, import_line_eq hsplit]
  have hget : storeGet (import_passwords s [line]).2 (trimStr nm)
      = .ok (trimStr p) := by
    rw [hline]
    dsimp only
    unfold set_password_type
    dsimp only
    rw [storeGet_set_ne (Ne.symm (typeKey_ne_self (trimStr nm))),
      save_to_keyring_get_self hni]
  refine ⟨?_, hget, ?_, ?_⟩
  · rw [hline]
  · rw [hline]
    dsimp only
    unfold set_password_type
    dsimp only
    rw [storeGet_set_same]
  · intro hne hcontra
    rw [hget] at hcontra
    injection hcontra with hcontra2
    exact hne hcontra2

/-- Claim C10, witness: importing the single line `"name , secret"` stores
the trimmed pair `("name", "secret")`, typed `custom`, and the stored
secret is not the raw field `" secret"`. -/
theorem C10_import_trims_fields_witness :
    splitComma "name , secret" = ["name ", " secret"] ∧
    trimStr "name " ≠ APP_INDEX ∧
    ((import_passwords [] ["name , secret"]).1 = .ok () ∧
      storeGet (import_passwords [] ["name , secret"]).2 (trimStr "name ")
        = .ok (trimStr " secret") ∧
      storeGet (import_passwords [] ["name , secret"]).2
          (trimStr "name " ++ PASSWORD_TYPE_SUFFIX) = .ok "custom" ∧
      (trimStr " secret" ≠ " secret" →
        storeGet (import_passwords [] ["name , secret"]).2 (trimStr "name ")
          ≠ .ok " secret")) :=
  ⟨by decide, by decide,
    C10_import_trims_fields [] "name , secret" "name " " secret"
      (by decide) (by decide)⟩

end Apppass
